import Mathlib

/-!
Shallow embedding of the file-drop event decision engine
(`src/event-processor/S3EventProcessor.ts` together with the ports it
consumes from `Bucket.ts` and `Subscriber.ts`).

Keys and filenames are Lean `String`s (lists of characters); the JS string
operations used by the source (`split`, `startsWith`, `substring`, `join`,
`decodeURIComponent`, `replace(/\+/g,' ')`) are given executable models over
the character lists.  The three external collaborators (storage rename,
subscriber notification, quarantine move) are oracles carried in an
environment, and every call the engine makes to them is recorded, in order,
in a trace of `Effect`s, so that claims of the form "X is never invoked"
become statements about the trace.
-/

/-- JS `Array.prototype.join(sep)` for a single-character separator,
over char lists. -/
def joinSep (sep : Char) : List (List Char) → List Char
  | [] => []
  | [x] => x
  | x :: y :: rest => x ++ sep :: joinSep sep (y :: rest)

/-- JS `String.prototype.split(sep)` for a single-character separator,
over char lists.  `splitOnChar sep l` is never `[]`. -/
def splitOnChar (sep : Char) : List Char → List (List Char)
  | [] => [[]]
  | c :: rest =>
      if c = sep then [] :: splitOnChar sep rest
      else (c :: (splitOnChar sep rest).headI) :: (splitOnChar sep rest).tail

/-- Last element of a list of char lists, `[]` when empty: models
`array.pop()` on the (never empty) result of a JS `split`, with the
source's `|| ''` fallback. -/
def lastPart : List (List Char) → List Char
  | [] => []
  | [x] => x
  | _ :: y :: rest => lastPart (y :: rest)

/-- JS `key.startsWith(pre)`. -/
def jsStartsWith (s pre : String) : Bool := pre.data.isPrefixOf s.data

/-- Hex digit value, as used by `decodeURIComponent`'s `%XX` escapes
(code points 48-57 are `0`-`9`, 65-70 are `A`-`F`, 97-102 are `a`-`f`). -/
def hexVal (c : Char) : Option Nat :=
  let n := c.toNat
  if 48 ≤ n ∧ n ≤ 57 then some (n - 48)
  else if 65 ≤ n ∧ n ≤ 70 then some (n - 55)
  else if 97 ≤ n ∧ n ≤ 102 then some (n - 87)
  else none

/-- Read one `%XX` escape from the front of the list, returning the byte
value and the rest; `none` when the escape is malformed. -/
def readEscapedByte : List Char → Option (Nat × List Char)
  | '%' :: h :: l :: rest =>
      match hexVal h, hexVal l with
      | some hv, some lv => some (16 * hv + lv, rest)
      | _, _ => none
  | _ => none

/-- UTF-8 continuation byte (`10xxxxxx`). -/
def isContByte (b : Nat) : Bool := decide (0x80 ≤ b ∧ b < 0xC0)

/-- Fuel-indexed core of ECMA-262 `decodeURIComponent`: `%XX` escapes are
decoded as UTF-8 octet sequences (rejecting overlong encodings, surrogate
code points and values above `0x10FFFF`); any other character passes
through unchanged; `none` models the `URIError` throw. -/
def percentDecodeAux : Nat → List Char → Option (List Char)
  | _, [] => some []
  | 0, _ :: _ => none
  | Nat.succ fuel, '%' :: rest₀ =>
      match readEscapedByte ('%' :: rest₀) with
      | none => none
      | some (b, rest₁) =>
          if b < 0x80 then
            (percentDecodeAux fuel rest₁).map (fun tail => Char.ofNat b :: tail)
          else if b < 0xC0 then none
          else if b < 0xE0 then
            match readEscapedByte rest₁ with
            | some (b1, rest₂) =>
                if isContByte b1 then
                  let v := (b - 0xC0) * 0x40 + (b1 - 0x80)
                  if 0x80 ≤ v then
                    (percentDecodeAux fuel rest₂).map (fun tail => Char.ofNat v :: tail)
                  else none
                else none
            | none => none
          else if b < 0xF0 then
            match readEscapedByte rest₁ with
            | some (b1, rest₂) =>
                match readEscapedByte rest₂ with
                | some (b2, rest₃) =>
                    if isContByte b1 && isContByte b2 then
                      let v := (b - 0xE0) * 0x1000 + (b1 - 0x80) * 0x40 + (b2 - 0x80)
                      if 0x800 ≤ v ∧ (v < 0xD800 ∨ 0xDFFF < v) then
                        (percentDecodeAux fuel rest₃).map (fun tail => Char.ofNat v :: tail)
                      else none
                    else none
                | none => none
            | none => none
          else if b < 0xF8 then
            match readEscapedByte rest₁ with
            | some (b1, rest₂) =>
                match readEscapedByte rest₂ with
                | some (b2, rest₃) =>
                    match readEscapedByte rest₃ with
                    | some (b3, rest₄) =>
                        if isContByte b1 && isContByte b2 && isContByte b3 then
                          let v := (b - 0xF0) * 0x40000 + (b1 - 0x80) * 0x1000 +
                                   (b2 - 0x80) * 0x40 + (b3 - 0x80)
                          if 0x10000 ≤ v ∧ v ≤ 0x10FFFF then
                            (percentDecodeAux fuel rest₄).map
                              (fun tail => Char.ofNat v :: tail)
                          else none
                        else none
                    | none => none
                | none => none
            | none => none
          else none
  | Nat.succ fuel, c :: rest =>
      (percentDecodeAux fuel rest).map (fun tail => c :: tail)

/-- JS `decodeURIComponent`; `none` models the `URIError` throw on a
malformed percent sequence. -/
def jsDecodeURIComponent (s : String) : Option String :=
  (percentDecodeAux s.data.length s.data).map (fun l => ⟨l⟩)

/-- JS `key.replace(/\+/g, ' ')`. -/
def plusToSpace (s : String) : String :=
  ⟨s.data.map (fun c => if c = '+' then ' ' else c)⟩

/-- Line 54 of `S3EventProcessor.ts`:
`decodeURIComponent(record.s3.object.key.replace(/\+/g, ' '))`. -/
def decodeKey (raw : String) : Option String :=
  jsDecodeURIComponent (plusToSpace raw)

/-- One configured intake rule (`BucketSubdirectory` in `IContext`),
restricted to the fields the decision engine reads. -/
structure BucketSubdirectory where
  path : String
  subscriberLambdaArn : String
deriving DecidableEq, Repr

/-- The bucket configuration the engine reads through `bucket.getConfig()`
(and `bucket.getName()` = `config.name`). -/
structure BucketConfig where
  name : String
  subdirectories : List BucketSubdirectory
deriving DecidableEq, Repr

/-- The `action` discriminator of `ProcessingResult`. -/
inductive FileAction where
  | skippedNoMatch
  | skippedAlreadyProcessed
  | renamed
  | errorRename
  | errorInvoke
deriving DecidableEq, Repr

/-- `ProcessingResult` from `S3EventProcessor.ts` (optional JS fields
become `Option`s, absent = `none`). -/
structure ProcessingResult where
  success : Bool
  action : FileAction
  reason : Option String := none
  originalKey : String
  newKey : Option String := none
  subscriberInvoked : Option Bool := none
  movedToErrors : Option Bool := none
deriving DecidableEq, Repr

/-- One call the engine makes to an external collaborator (or to the
injected clock), with its arguments; the engine's run is summarised by the
ordered list of these. -/
inductive Effect where
  | clockRead
  | renameObject (key newKey : String)
  | notify (subscriberLambdaArn bucketName key : String)
  | moveToErrors (key subfolderPath reason : String)
deriving DecidableEq, Repr

/-- The environment of one invocation: the configuration plus oracles
fixing what each external call would return.  `clock n` is the value of
the n-th clock read of the invocation; `notifyResult` returns `none` when
the subscriber invocation resolves and `some err` when it rejects with
error text `err`. -/
structure Env where
  config : BucketConfig
  clock : Nat → String
  renameResult : String → String → Bool
  notifyResult : String → String → String → Option String
  moveToErrorsResult : String → String → String → Bool

/-- `findSubfolderConfig` (lines 155-166): first configured rule, in
declaration order, whose `path + '/'` literally starts the key. -/
def findSubfolderConfig (config : BucketConfig) (key : String) :
    Option BucketSubdirectory :=
  config.subdirectories.find? (fun subdir => jsStartsWith key (subdir.path ++ "/"))

/-- The `TIMESTAMP_PREFIX_PATTERN` regex (line 37), anchored at the start:
four digits, dash, two digits, dash, two digits, `T`, two digits, colon,
two digits, colon, two digits, dot, three digits, `Z`, dash — as a test on
the char list. -/
def tsMarkTest : List Char → Bool
  | y1 :: y2 :: y3 :: y4 :: '-' :: m1 :: m2 :: '-' :: d1 :: d2 :: 'T' ::
    h1 :: h2 :: ':' :: n1 :: n2 :: ':' :: s1 :: s2 :: '.' ::
    f1 :: f2 :: f3 :: 'Z' :: '-' :: _ =>
      [y1, y2, y3, y4, m1, m2, d1, d2, h1, h2, n1, n2, s1, s2, f1, f2, f3].all
        Char.isDigit
  | _ => false

/-- `isAlreadyProcessed` (lines 148-150). -/
def isAlreadyProcessed (filename : String) : Bool := tsMarkTest filename.data

/-- Line 79: `key.split('/').pop() || ''`. -/
def filenameOf (key : String) : String := ⟨lastPart (splitOnChar '/' key.data)⟩

/-- `generateDateBasedFileName` (lines 173-179); `clock 0` is the single
`this.clockFn()` read the function performs. -/
def generateDateBasedFileName (clock : Nat → String)
    (subfolderPath nestedPath originalFilename : String) : String :=
  let timestamp := clock 0
  if nestedPath ≠ "" then
    subfolderPath ++ "/" ++ nestedPath ++ "/" ++ timestamp ++ "-" ++ originalFilename
  else
    subfolderPath ++ "/" ++ timestamp ++ "-" ++ originalFilename

/-- `process` after key decoding (lines 56-141), returning the outcome
together with the ordered trace of external calls. -/
def processDecoded (env : Env) (key : String) : ProcessingResult × List Effect :=
  let result : ProcessingResult :=
    { success := false, action := .errorRename, originalKey := key }
  match findSubfolderConfig env.config key with
  | none =>
      ({ result with
          success := true
          action := .skippedNoMatch
          reason := some "File does not match any configured subdirectory" }, [])
  | some subfolderConfig =>
      let filename := filenameOf key
      if isAlreadyProcessed filename then
        ({ result with
            success := true
            action := .skippedAlreadyProcessed
            reason := some "File already has timestamp prefix indicating previous processing" },
         [])
      else
        let relativePath : String := ⟨key.data.drop (subfolderConfig.path.data.length + 1)⟩
        let pathParts := splitOnChar '/' relativePath.data
        let filenameOnly : String := ⟨lastPart pathParts⟩
        let nestedPath : String := ⟨joinSep '/' pathParts.dropLast⟩
        let newKey := generateDateBasedFileName env.clock subfolderConfig.path
          nestedPath filenameOnly
        let callEffects := [Effect.clockRead, Effect.renameObject key newKey]
        if env.renameResult key newKey = false then
          ({ result with
              action := .errorRename
              reason := some "Failed to rename object in S3" }, callEffects)
        else
          let result := { result with newKey := some newKey, action := FileAction.renamed }
          match env.notifyResult subfolderConfig.subscriberLambdaArn env.config.name newKey with
          | none =>
              ({ result with subscriberInvoked := some true, success := true },
               callEffects ++
                 [Effect.notify subfolderConfig.subscriberLambdaArn env.config.name newKey])
          | some errMsg =>
              let reason := "Subscriber Lambda invocation failed: " ++ errMsg
              ({ result with
                  success := false
                  action := .errorInvoke
                  reason := some reason
                  subscriberInvoked := some false
                  movedToErrors :=
                    some (env.moveToErrorsResult newKey subfolderConfig.path reason) },
               callEffects ++
                 [Effect.notify subfolderConfig.subscriberLambdaArn env.config.name newKey,
                  Effect.moveToErrors newKey subfolderConfig.path reason])

/-- `process` (lines 52-142): decode the raw key (line 54) — an
uncaught `URIError` on malformed input surfaces as `Except.error` — then
run the decision logic on the decoded key. -/
def process (env : Env) (rawKey : String) :
    Except String (ProcessingResult × List Effect) :=
  match decodeKey rawKey with
  | none => Except.error "URIError: URI malformed"
  | some key => Except.ok (processDecoded env key)

example : splitOnChar '/' "a//b".data = [['a'], [], ['b']] := by decide
example : splitOnChar '/' "".data = [[]] := by decide
example : joinSep '/' [['a'], [], ['b']] = "a//b".data := by decide
example : filenameOf "person-full/sub/data.json" = "data.json" := rfl
example : filenameOf "person-full/" = "" := rfl
example : decodeKey "a%2Fb+c" = some "a/b c" := rfl
example : decodeKey "%" = none := rfl
example : decodeKey "person-full/file%20with%20spaces.json" =
    some "person-full/file with spaces.json" := rfl
example : isAlreadyProcessed "2026-02-22T10:30:00.000Z-data.json" = true := rfl
example : isAlreadyProcessed "data-2026-02-22T10:30:00.000Z.json" = false := rfl
example : isAlreadyProcessed "2026-02-22T10:30:00.000Zdata.json" = false := rfl
example : isAlreadyProcessed "" = false := rfl

/-! ### Helper lemmas about the JS string primitives -/

theorem splitOnChar_ne_nil (sep : Char) (l : List Char) : splitOnChar sep l ≠ [] := by
  cases l with
  | nil => simp [splitOnChar]
  | cons c rest =>
      simp only [splitOnChar]
      split <;> simp

theorem splitOnChar_cons_sep (sep : Char) (l : List Char) :
    splitOnChar sep (sep :: l) = [] :: splitOnChar sep l := by
  simp [splitOnChar]

theorem splitOnChar_cons_ne (sep c : Char) (l : List Char) (h : c ≠ sep) :
    splitOnChar sep (c :: l) =
      (c :: (splitOnChar sep l).headI) :: (splitOnChar sep l).tail := by
  simp [splitOnChar, h]

theorem splitOnChar_no_sep (sep : Char) (l : List Char) (h : sep ∉ l) :
    splitOnChar sep l = [l] := by
  induction l with
  | nil => simp [splitOnChar]
  | cons c rest ih =>
      have hc : c ≠ sep := fun hcs => h (by simp [hcs])
      have hr : sep ∉ rest := fun hm => h (by simp [hm])
      rw [splitOnChar_cons_ne sep c rest hc, ih hr]
      simp

theorem lastPart_cons (x : List Char) (ys : List (List Char)) (h : ys ≠ []) :
    lastPart (x :: ys) = lastPart ys := by
  cases ys with
  | nil => exact absurd rfl h
  | cons y t => rfl

theorem lastPart_mem (xs : List (List Char)) (h : xs ≠ []) : lastPart xs ∈ xs := by
  induction xs with
  | nil => exact absurd rfl h
  | cons x ys ih =>
      cases ys with
      | nil => simp [lastPart]
      | cons y t =>
          rw [lastPart_cons x (y :: t) (by simp)]
          exact List.mem_cons_of_mem x (ih (by simp))

theorem mem_splitOnChar_no_sep (sep : Char) (l : List Char) (part : List Char)
    (h : part ∈ splitOnChar sep l) : sep ∉ part := by
  induction l generalizing part with
  | nil =>
      simp [splitOnChar] at h
      simp [h]
  | cons c rest ih =>
      by_cases hc : c = sep
      · subst hc
        rw [splitOnChar_cons_sep] at h
        rcases List.mem_cons.mp h with h1 | h2
        · simp [h1]
        · exact ih part h2
      · rw [splitOnChar_cons_ne sep c rest hc] at h
        obtain ⟨p0, ps, hps⟩ : ∃ p0 ps, splitOnChar sep rest = p0 :: ps := by
          cases hsp : splitOnChar sep rest with
          | nil => exact absurd hsp (splitOnChar_ne_nil sep rest)
          | cons p0 ps => exact ⟨p0, ps, rfl⟩
        rw [hps] at h
        simp only [List.headI, List.tail] at h
        rcases List.mem_cons.mp h with h1 | h2
        · subst h1
          intro hmem
          rcases List.mem_cons.mp hmem with h3 | h4
          · exact hc h3.symm
          · exact ih p0 (by rw [hps]; exact List.mem_cons_self p0 ps) h4
        · exact ih part (by rw [hps]; exact List.mem_cons_of_mem p0 h2)

theorem splitOnChar_length (sep : Char) (l : List Char) :
    (splitOnChar sep l).length = l.count sep + 1 := by
  induction l with
  | nil => simp [splitOnChar]
  | cons c rest ih =>
      by_cases hc : c = sep
      · subst hc
        rw [splitOnChar_cons_sep]
        simp [ih, List.count_cons]
      · rw [splitOnChar_cons_ne sep c rest hc]
        obtain ⟨p0, ps, hps⟩ : ∃ p0 ps, splitOnChar sep rest = p0 :: ps := by
          cases hsp : splitOnChar sep rest with
          | nil => exact absurd hsp (splitOnChar_ne_nil sep rest)
          | cons p0 ps => exact ⟨p0, ps, rfl⟩
        rw [hps] at ih ⊢
        simp only [List.headI, List.tail, List.length_cons] at ih ⊢
        rw [List.count_cons]
        simp [hc, ih]

theorem lastPart_splitOnChar_append (sep : Char) (a b : List Char) (h : sep ∉ b) :
    lastPart (splitOnChar sep (a ++ sep :: b)) = b := by
  induction a with
  | nil =>
      rw [List.nil_append, splitOnChar_cons_sep, splitOnChar_no_sep sep b h]
      rfl
  | cons c a' ih =>
      by_cases hc : c = sep
      · rw [hc, List.cons_append, splitOnChar_cons_sep,
          lastPart_cons _ _ (splitOnChar_ne_nil sep (a' ++ sep :: b))]
        exact ih
      · rw [List.cons_append, splitOnChar_cons_ne sep c _ hc]
        obtain ⟨p0, ps, hps⟩ : ∃ p0 ps, splitOnChar sep (a' ++ sep :: b) = p0 :: ps := by
          cases hsp : splitOnChar sep (a' ++ sep :: b) with
          | nil => exact absurd hsp (splitOnChar_ne_nil sep _)
          | cons p0 ps => exact ⟨p0, ps, rfl⟩
        have hps2 : ps ≠ [] := by
          intro hnil
          have hl := splitOnChar_length sep (a' ++ sep :: b)
          rw [hps, hnil] at hl
          simp [List.count_append, List.count_cons] at hl
        rw [hps] at ih ⊢
        simp only [List.headI, List.tail]
        rw [lastPart_cons _ _ hps2, ← lastPart_cons p0 ps hps2]
        exact ih

theorem joinSep_splitOnChar (sep : Char) (l : List Char) :
    joinSep sep (splitOnChar sep l) = l := by
  induction l with
  | nil => rfl
  | cons c rest ih =>
      by_cases hc : c = sep
      · rw [hc, splitOnChar_cons_sep]
        obtain ⟨p0, ps, hps⟩ : ∃ p0 ps, splitOnChar sep rest = p0 :: ps := by
          cases hsp : splitOnChar sep rest with
          | nil => exact absurd hsp (splitOnChar_ne_nil sep rest)
          | cons p0 ps => exact ⟨p0, ps, rfl⟩
        rw [hps] at ih ⊢
        show [] ++ sep :: joinSep sep (p0 :: ps) = sep :: rest
        rw [List.nil_append, ih]
      · rw [splitOnChar_cons_ne sep c rest hc]
        obtain ⟨p0, ps, hps⟩ : ∃ p0 ps, splitOnChar sep rest = p0 :: ps := by
          cases hsp : splitOnChar sep rest with
          | nil => exact absurd hsp (splitOnChar_ne_nil sep rest)
          | cons p0 ps => exact ⟨p0, ps, rfl⟩
        rw [hps] at ih ⊢
        simp only [List.headI, List.tail]
        cases ps with
        | nil =>
            show c :: p0 = c :: rest
            simpa [joinSep] using ih
        | cons q qs =>
            show (c :: p0) ++ sep :: joinSep sep (q :: qs) = c :: rest
            rw [List.cons_append]
            have : p0 ++ sep :: joinSep sep (q :: qs) = rest := ih
            rw [this]

theorem joinSep_append_single (sep : Char) (xs : List (List Char)) (y : List Char) :
    joinSep sep (xs ++ [y]) = if xs = [] then y else joinSep sep xs ++ sep :: y := by
  induction xs with
  | nil => simp [joinSep]
  | cons x xs' ih =>
      cases xs' with
      | nil => simp [joinSep]
      | cons x' t =>
          show x ++ sep :: joinSep sep ((x' :: t) ++ [y]) = _
          rw [ih]
          simp [joinSep, List.append_assoc]

theorem dropLast_append_lastPart (xs : List (List Char)) (h : xs ≠ []) :
    xs.dropLast ++ [lastPart xs] = xs := by
  induction xs with
  | nil => exact absurd rfl h
  | cons x ys ih =>
      cases ys with
      | nil => simp [lastPart]
      | cons y t =>
          rw [lastPart_cons x (y :: t) (by simp)]
          have := ih (by simp)
          simp only [List.dropLast_cons_of_ne_nil (l := y :: t) (by simp)]
          rw [List.cons_append, this]

/-! ### Branch characterizations of the engine -/

/-- The new key that lines 92-98 compute for a key matched by `rule`:
nested-structure-preserving timestamp rename. -/
def newKeyFor (env : Env) (rule : BucketSubdirectory) (key : String) : String :=
  let relativePath : String := ⟨key.data.drop (rule.path.data.length + 1)⟩
  let pathParts := splitOnChar '/' relativePath.data
  generateDateBasedFileName env.clock rule.path
    ⟨joinSep '/' pathParts.dropLast⟩ ⟨lastPart pathParts⟩

theorem processDecoded_no_match (env : Env) (key : String)
    (h : findSubfolderConfig env.config key = none) :
    processDecoded env key =
      ({ success := true
         action := .skippedNoMatch
         reason := some "File does not match any configured subdirectory"
         originalKey := key }, []) := by
  simp only [processDecoded, h]

theorem processDecoded_marked (env : Env) (key : String) (rule : BucketSubdirectory)
    (h : findSubfolderConfig env.config key = some rule)
    (hm : isAlreadyProcessed (filenameOf key) = true) :
    processDecoded env key =
      ({ success := true
         action := .skippedAlreadyProcessed
         reason := some "File already has timestamp prefix indicating previous processing"
         originalKey := key }, []) := by
  simp only [processDecoded, h, hm, if_true]

theorem processDecoded_rename_failed (env : Env) (key : String)
    (rule : BucketSubdirectory)
    (h : findSubfolderConfig env.config key = some rule)
    (hm : isAlreadyProcessed (filenameOf key) = false)
    (hr : env.renameResult key (newKeyFor env rule key) = false) :
    processDecoded env key =
      ({ success := false
         action := .errorRename
         reason := some "Failed to rename object in S3"
         originalKey := key },
       [Effect.clockRead, Effect.renameObject key (newKeyFor env rule key)]) := by
  simp only [newKeyFor] at hr ⊢
  simp only [processDecoded, newKeyFor, h, hm, Bool.false_eq_true, if_false, hr, if_true]

theorem processDecoded_notify_ok (env : Env) (key : String) (rule : BucketSubdirectory)
    (h : findSubfolderConfig env.config key = some rule)
    (hm : isAlreadyProcessed (filenameOf key) = false)
    (hr : env.renameResult key (newKeyFor env rule key) = true)
    (hn : env.notifyResult rule.subscriberLambdaArn env.config.name
            (newKeyFor env rule key) = none) :
    processDecoded env key =
      ({ success := true
         action := .renamed
         originalKey := key
         newKey := some (newKeyFor env rule key)
         subscriberInvoked := some true },
       [Effect.clockRead, Effect.renameObject key (newKeyFor env rule key),
        Effect.notify rule.subscriberLambdaArn env.config.name
          (newKeyFor env rule key)]) := by
  simp only [newKeyFor] at hr hn ⊢
  simp only [processDecoded, newKeyFor, h, hm, Bool.false_eq_true, if_false, hr,
    Bool.true_eq_false, hn]
  rfl

theorem processDecoded_notify_failed (env : Env) (key : String)
    (rule : BucketSubdirectory) (errMsg : String)
    (h : findSubfolderConfig env.config key = some rule)
    (hm : isAlreadyProcessed (filenameOf key) = false)
    (hr : env.renameResult key (newKeyFor env rule key) = true)
    (hn : env.notifyResult rule.subscriberLambdaArn env.config.name
            (newKeyFor env rule key) = some errMsg) :
    processDecoded env key =
      ({ success := false
         action := .errorInvoke
         reason := some ("Subscriber Lambda invocation failed: " ++ errMsg)
         originalKey := key
         newKey := some (newKeyFor env rule key)
         subscriberInvoked := some false
         movedToErrors := some (env.moveToErrorsResult (newKeyFor env rule key)
           rule.path ("Subscriber Lambda invocation failed: " ++ errMsg)) },
       [Effect.clockRead, Effect.renameObject key (newKeyFor env rule key),
        Effect.notify rule.subscriberLambdaArn env.config.name (newKeyFor env rule key),
        Effect.moveToErrors (newKeyFor env rule key) rule.path
          ("Subscriber Lambda invocation failed: " ++ errMsg)]) := by
  simp only [newKeyFor] at hr hn ⊢
  simp only [processDecoded, newKeyFor, h, hm, Bool.false_eq_true, if_false, hr,
    Bool.true_eq_false, hn]
  rfl

/-! ### The recursion-guard pattern, spec-side, and the transition's shape -/

/-- §4.3 of the spec, stated in the spec's own words: the filename begins,
at position 0, with four digits, dash, two digits, dash, two digits, `T`,
two digits, colon, two digits, colon, two digits, dot, three digits, `Z`,
dash.  Used to compare the code's guard against the spec's description. -/
def specMarked (f : String) : Prop :=
  ∃ (y1 y2 y3 y4 m1 m2 d1 d2 h1 h2 n1 n2 s1 s2 f1 f2 f3 : Char) (rest : List Char),
    f.data = y1 :: y2 :: y3 :: y4 :: '-' :: m1 :: m2 :: '-' :: d1 :: d2 :: 'T' ::
      h1 :: h2 :: ':' :: n1 :: n2 :: ':' :: s1 :: s2 :: '.' ::
      f1 :: f2 :: f3 :: 'Z' :: '-' :: rest ∧
    [y1, y2, y3, y4, m1, m2, d1, d2, h1, h2, n1, n2, s1, s2, f1, f2, f3].all
      Char.isDigit = true

/-- A clock output of the exact shape `Date.toISOString` produces
(`YYYY-MM-DDTHH:mm:ss.SSSZ`, 24 characters).  Used as a hypothesis where a
claim relies on the injected clock returning a real timestamp. -/
def conformingTimestamp (t : String) : Bool :=
  match t.data with
  | [y1, y2, y3, y4, '-', m1, m2, '-', d1, d2, 'T', h1, h2, ':', n1, n2, ':',
     s1, s2, '.', f1, f2, f3, 'Z'] =>
      [y1, y2, y3, y4, m1, m2, d1, d2, h1, h2, n1, n2, s1, s2, f1, f2, f3].all
        Char.isDigit
  | _ => false

theorem conformingTimestamp_props (t : String) (h : conformingTimestamp t = true) :
    (∀ rest : List Char, tsMarkTest (t.data ++ '-' :: rest) = true) ∧
    '/' ∉ t.data ∧ t.data ≠ [] := by
  unfold conformingTimestamp at h
  split at h
  · rename_i y1 y2 y3 y4 m1 m2 d1 d2 h1 h2 n1 n2 s1 s2 f1 f2 f3 heq
    rw [heq]
    refine ⟨fun rest => h, ?_, by simp⟩
    intro hmem
    have hall := List.all_eq_true.mp h
    simp only [List.mem_cons, List.not_mem_nil, or_false] at hmem
    rcases hmem with h' | h' | h' | h' | h' | h' | h' | h' | h' | h' | h' | h' |
      h' | h' | h' | h' | h' | h' | h' | h' | h' | h' | h' | h' <;>
      first
        | exact absurd h' (by decide)
        | (subst h'
           have := hall '/' (by simp)
           simp [Char.isDigit] at this)
  · exact absurd h (by simp)

theorem isAlreadyProcessed_iff_specMarked (f : String) :
    isAlreadyProcessed f = true ↔ specMarked f := by
  constructor
  · intro h
    unfold isAlreadyProcessed tsMarkTest at h
    split at h
    · rename_i y1 y2 y3 y4 m1 m2 d1 d2 h1 h2 n1 n2 s1 s2 f1 f2 f3 rest heq
      exact ⟨y1, y2, y3, y4, m1, m2, d1, d2, h1, h2, n1, n2, s1, s2, f1, f2, f3,
        rest, heq, h⟩
    · exact absurd h (by simp)
  · rintro ⟨y1, y2, y3, y4, m1, m2, d1, d2, h1, h2, n1, n2, s1, s2, f1, f2, f3,
      rest, heq, hall⟩
    unfold isAlreadyProcessed
    rw [heq]
    exact hall

/-- The path parts of the key's remainder after the matched rule
(line 93's `pathParts`). -/
def relParts (rule : BucketSubdirectory) (key : String) : List (List Char) :=
  splitOnChar '/' (key.data.drop (rule.path.data.length + 1))

/-- Line 95's `nestedPath`, as a char list. -/
def nestedOf (rule : BucketSubdirectory) (key : String) : List Char :=
  joinSep '/' (relParts rule key).dropLast

/-- Line 94's `filenameOnly`, as a char list. -/
def fnOf (rule : BucketSubdirectory) (key : String) : List Char :=
  lastPart (relParts rule key)

theorem generate_data (clock : Nat → String) (p n f : String) :
    (generateDateBasedFileName clock p n f).data =
      if n.data = [] then p.data ++ '/' :: ((clock 0).data ++ '-' :: f.data)
      else p.data ++ '/' :: (n.data ++ '/' :: ((clock 0).data ++ '-' :: f.data)) := by
  have hslash : ("/" : String).data = ['/'] := rfl
  have hdash : ("-" : String).data = ['-'] := rfl
  unfold generateDateBasedFileName
  by_cases hn : n = ""
  · subst hn
    simp [String.data_append, hslash, hdash]
  · have hnd : n.data ≠ [] := fun hd => hn (String.ext hd)
    rw [if_neg hnd]
    simp [hn, String.data_append, hslash, hdash]

theorem newKeyFor_data (env : Env) (rule : BucketSubdirectory) (key : String) :
    (newKeyFor env rule key).data =
      if nestedOf rule key = [] then
        rule.path.data ++ '/' :: ((env.clock 0).data ++ '-' :: fnOf rule key)
      else
        rule.path.data ++ '/' :: (nestedOf rule key ++ '/' ::
          ((env.clock 0).data ++ '-' :: fnOf rule key)) := by
  simp only [newKeyFor]
  rw [generate_data]
  rfl

theorem newKeyFor_startsWith (env : Env) (rule : BucketSubdirectory) (key : String) :
    jsStartsWith (newKeyFor env rule key) (rule.path ++ "/") = true := by
  unfold jsStartsWith
  rw [List.isPrefixOf_iff_prefix, String.data_append, newKeyFor_data]
  by_cases h : nestedOf rule key = []
  · rw [if_pos h]
    exact ⟨(env.clock 0).data ++ '-' :: fnOf rule key, by simp⟩
  · rw [if_neg h]
    exact ⟨nestedOf rule key ++ '/' :: ((env.clock 0).data ++ '-' :: fnOf rule key),
      by simp⟩

theorem fnOf_no_sep (rule : BucketSubdirectory) (key : String) :
    ('/' : Char) ∉ fnOf rule key := by
  unfold fnOf
  exact mem_splitOnChar_no_sep '/' _ _ (lastPart_mem _ (splitOnChar_ne_nil '/' _))

theorem newKeyFor_filename (env : Env) (rule : BucketSubdirectory) (key : String)
    (hts : conformingTimestamp (env.clock 0) = true) :
    filenameOf (newKeyFor env rule key) =
      ⟨(env.clock 0).data ++ '-' :: fnOf rule key⟩ ∧
    isAlreadyProcessed (filenameOf (newKeyFor env rule key)) = true := by
  obtain ⟨hmark, hslash, -⟩ := conformingTimestamp_props _ hts
  have hB : ('/' : Char) ∉ (env.clock 0).data ++ '-' :: fnOf rule key := by
    intro hm
    rcases List.mem_append.mp hm with h1 | h2
    · exact hslash h1
    · rcases List.mem_cons.mp h2 with h3 | h4
      · exact absurd h3 (by decide)
      · exact fnOf_no_sep rule key h4
  have hlast : lastPart (splitOnChar '/' (newKeyFor env rule key).data) =
      (env.clock 0).data ++ '-' :: fnOf rule key := by
    rw [newKeyFor_data]
    by_cases h : nestedOf rule key = []
    · rw [if_pos h]
      exact lastPart_splitOnChar_append '/' _ _ hB
    · rw [if_neg h]
      have hassoc : rule.path.data ++ '/' :: (nestedOf rule key ++ '/' ::
          ((env.clock 0).data ++ '-' :: fnOf rule key)) =
          (rule.path.data ++ '/' :: nestedOf rule key) ++ '/' ::
            ((env.clock 0).data ++ '-' :: fnOf rule key) := by simp
      rw [hassoc]
      exact lastPart_splitOnChar_append '/' _ _ hB
  constructor
  · unfold filenameOf
    rw [hlast]
  · show tsMarkTest (filenameOf (newKeyFor env rule key)).data = true
    unfold filenameOf
    show tsMarkTest (lastPart (splitOnChar '/' (newKeyFor env rule key).data)) = true
    rw [hlast]
    exact hmark _

theorem find_implies_startsWith (config : BucketConfig) (key : String)
    (rule : BucketSubdirectory)
    (h : findSubfolderConfig config key = some rule) :
    jsStartsWith key (rule.path ++ "/") = true ∧ rule ∈ config.subdirectories := by
  unfold findSubfolderConfig at h
  have h1 := List.find?_some h
  have h2 := List.mem_of_find?_eq_some h
  exact ⟨h1, h2⟩

theorem startsWith_decomp (key p : String)
    (hp : jsStartsWith key (p ++ "/") = true) :
    ∃ suffix, key.data = p.data ++ '/' :: suffix ∧
      key.data.drop (p.data.length + 1) = suffix := by
  unfold jsStartsWith at hp
  obtain ⟨s, hs⟩ := List.isPrefixOf_iff_prefix.mp hp
  rw [String.data_append] at hs
  refine ⟨s, ?_, ?_⟩
  · rw [← hs]; simp
  · rw [← hs]
    have h2 : p.data.length + 1 = (p.data ++ ("/" : String).data).length := by
      simp [String.data]
    rw [h2]
    exact List.drop_left _ _

theorem processDecoded_originalKey (env : Env) (key : String) :
    (processDecoded env key).1.originalKey = key := by
  cases hf : findSubfolderConfig env.config key with
  | none => rw [processDecoded_no_match env key hf]
  | some rule =>
      cases hm : isAlreadyProcessed (filenameOf key) with
      | true => rw [processDecoded_marked env key rule hf hm]
      | false =>
          cases hr : env.renameResult key (newKeyFor env rule key) with
          | false => rw [processDecoded_rename_failed env key rule hf hm hr]
          | true =>
              cases hn : env.notifyResult rule.subscriberLambdaArn env.config.name
                  (newKeyFor env rule key) with
              | none => rw [processDecoded_notify_ok env key rule hf hm hr hn]
              | some e => rw [processDecoded_notify_failed env key rule e hf hm hr hn]

theorem rename_target_eq (env : Env) (key : String) (rule : BucketSubdirectory)
    (nk : String)
    (h : findSubfolderConfig env.config key = some rule)
    (hm : isAlreadyProcessed (filenameOf key) = false)
    (hmem : Effect.renameObject key nk ∈ (processDecoded env key).2) :
    nk = newKeyFor env rule key := by
  by_cases hr : env.renameResult key (newKeyFor env rule key) = false
  · rw [processDecoded_rename_failed env key rule h hm hr] at hmem
    simpa using hmem
  · have hr' : env.renameResult key (newKeyFor env rule key) = true := by
      cases hb : env.renameResult key (newKeyFor env rule key)
      · exact absurd hb hr
      · rfl
    cases hn : env.notifyResult rule.subscriberLambdaArn env.config.name
        (newKeyFor env rule key) with
    | none =>
        rw [processDecoded_notify_ok env key rule h hm hr' hn] at hmem
        simpa using hmem
    | some e =>
        rw [processDecoded_notify_failed env key rule e h hm hr' hn] at hmem
        simpa using hmem

theorem rename_effect_present (env : Env) (key : String) (rule : BucketSubdirectory)
    (h : findSubfolderConfig env.config key = some rule)
    (hm : isAlreadyProcessed (filenameOf key) = false) :
    Effect.renameObject key (newKeyFor env rule key) ∈ (processDecoded env key).2 := by
  by_cases hr : env.renameResult key (newKeyFor env rule key) = false
  · rw [processDecoded_rename_failed env key rule h hm hr]
    simp
  · have hr' : env.renameResult key (newKeyFor env rule key) = true := by
      cases hb : env.renameResult key (newKeyFor env rule key)
      · exact absurd hb hr
      · rfl
    cases hn : env.notifyResult rule.subscriberLambdaArn env.config.name
        (newKeyFor env rule key) with
    | none =>
        rw [processDecoded_notify_ok env key rule h hm hr' hn]
        simp
    | some e =>
        rw [processDecoded_notify_failed env key rule e h hm hr' hn]
        simp

theorem find?_first {α : Type} (p : α → Bool) (pre : List α) (r : α) (post : List α)
    (hpre : ∀ x ∈ pre, p x = false) (hr : p r = true) :
    (pre ++ r :: post).find? p = some r := by
  induction pre with
  | nil => simp [List.find?_cons_of_pos _ hr]
  | cons a l ih =>
      rw [List.cons_append, List.find?_cons_of_neg]
      · exact ih (fun x hx => hpre x (List.mem_cons_of_mem a hx))
      · simp [hpre a (List.mem_cons_self a l)]

theorem newKeyFor_len (env : Env) (rule : BucketSubdirectory) (key : String)
    (hp : jsStartsWith key (rule.path ++ "/") = true)
    (hclk : env.clock 0 ≠ "") :
    key.data.length < (newKeyFor env rule key).data.length := by
  obtain ⟨suffix, hkey, hdrop⟩ := startsWith_decomp key rule.path hp
  have hclkd : (env.clock 0).data ≠ [] := fun hd => hclk (String.ext hd)
  have hclklen : 1 ≤ (env.clock 0).data.length := List.length_pos.mpr hclkd
  have hparts0 : relParts rule key = splitOnChar '/' suffix := by
    unfold relParts
    rw [hdrop]
  have hround : joinSep '/' (relParts rule key) = suffix := by
    rw [hparts0]
    exact joinSep_splitOnChar '/' suffix
  have hne : relParts rule key ≠ [] := by
    rw [hparts0]
    exact splitOnChar_ne_nil '/' suffix
  have hsuffix : suffix = joinSep '/' ((relParts rule key).dropLast ++ [fnOf rule key]) := by
    unfold fnOf
    rw [dropLast_append_lastPart _ hne, hround]
  rw [joinSep_append_single] at hsuffix
  rw [newKeyFor_data]
  by_cases hn : nestedOf rule key = []
  · rw [if_pos hn]
    by_cases hd : (relParts rule key).dropLast = []
    · rw [if_pos hd] at hsuffix
      rw [hkey, hsuffix]
      simp only [List.length_append, List.length_cons]
      omega
    · rw [if_neg hd] at hsuffix
      have he : joinSep '/' (relParts rule key).dropLast = nestedOf rule key := rfl
      rw [he, hn] at hsuffix
      rw [hkey, hsuffix]
      simp only [List.length_append, List.length_cons, List.nil_append]
      omega
  · rw [if_neg hn]
    have hd : (relParts rule key).dropLast ≠ [] := by
      intro h0
      apply hn
      unfold nestedOf
      rw [h0]
      rfl
    rw [if_neg hd] at hsuffix
    have he : joinSep '/' (relParts rule key).dropLast = nestedOf rule key := rfl
    rw [he] at hsuffix
    rw [hkey, hsuffix]
    simp only [List.length_append, List.length_cons]
    omega

/-! ### Concrete environments for witnesses -/

/-- Concrete environment mirroring the test suite's fixture: two configured
rules, a fixed clock, and all external calls succeeding. -/
def envW : Env where
  config := ⟨"test-bucket", [⟨"person-full", "arn-full"⟩, ⟨"person-delta", "arn-delta"⟩]⟩
  clock := fun _ => "2026-02-22T10:30:00.000Z"
  renameResult := fun _ _ => true
  notifyResult := fun _ _ _ => none
  moveToErrorsResult := fun _ _ _ => true

/-- Like `envW` but the storage rename reports failure. -/
def envRenameFail : Env := { envW with renameResult := fun _ _ => false }

/-- Like `envW` but the subscriber invocation rejects. -/
def envNotifyFail : Env := { envW with notifyResult := fun _ _ _ => some "X failed" }

/-- Like `envW` but the single configured intake path itself looks like a
timestamp prefix. -/
def envTsDir : Env :=
  { envW with config := ⟨"test-bucket", [⟨"2026-02-22T10:30:00.000Z-subfolder", "arn-t"⟩]⟩ }

/-! ### The claims -/

/-- C3: for every decoded key that is not prefixed by any configured
intakePath followed by a slash, `process` returns `skipped-no-match` with
success, and neither renameObject, nor moveToErrors, nor the notifier is
invoked (the effect trace is empty). -/
theorem claim3_no_match_skips (env : Env) (key : String)
    (h : ∀ rule ∈ env.config.subdirectories,
        jsStartsWith key (rule.path ++ "/") = false) :
    processDecoded env key =
      ({ success := true
         action := .skippedNoMatch
         reason := some "File does not match any configured subdirectory"
         originalKey := key }, []) := by
  apply processDecoded_no_match
  unfold findSubfolderConfig
  rw [List.find?_eq_none]
  intro x hx
  simp [h x hx]

theorem claim3_witness :
    processDecoded envW "unconfigured-folder/test-file.json" =
      ({ success := true
         action := .skippedNoMatch
         reason := some "File does not match any configured subdirectory"
         originalKey := "unconfigured-folder/test-file.json" }, []) :=
  claim3_no_match_skips envW "unconfigured-folder/test-file.json" (by decide)

/-- C4: the path matcher returns the first rule, in declaration order,
whose intakePath plus slash literally starts the decoded key; in
particular with rules `a` then `a/b`, the key `a/b/x.json` selects `a`. -/
theorem claim4_first_match :
    (∀ (cfg : BucketConfig) (key : String) (pre : List BucketSubdirectory)
        (r : BucketSubdirectory) (post : List BucketSubdirectory),
        cfg.subdirectories = pre ++ r :: post →
        (∀ x ∈ pre, jsStartsWith key (x.path ++ "/") = false) →
        jsStartsWith key (r.path ++ "/") = true →
        findSubfolderConfig cfg key = some r) ∧
    findSubfolderConfig ⟨"b", [⟨"a", "arnA"⟩, ⟨"a/b", "arnB"⟩]⟩ "a/b/x.json" =
      some ⟨"a", "arnA"⟩ := by
  constructor
  · intro cfg key pre r post hcfg hpre hr
    unfold findSubfolderConfig
    rw [hcfg]
    exact find?_first _ pre r post hpre hr
  · rfl

theorem claim4_witness :
    findSubfolderConfig ⟨"b", [⟨"zed", "arnZ"⟩, ⟨"a", "arnA"⟩]⟩ "a/q.json" =
      some ⟨"a", "arnA"⟩ :=
  claim4_first_match.1 ⟨"b", [⟨"zed", "arnZ"⟩, ⟨"a", "arnA"⟩]⟩ "a/q.json"
    [⟨"zed", "arnZ"⟩] ⟨"a", "arnA"⟩ [] rfl (by decide) (by decide)

/-- C7: for every matched, unmarked key, when the Storage Gateway's rename
returns false, `process` ends with `error-rename`, success=false, a reason
saying the rename failed, and the trace shows no notify and no
moveToErrors call. -/
theorem claim7_rename_failure (env : Env) (key : String) (rule : BucketSubdirectory)
    (h : findSubfolderConfig env.config key = some rule)
    (hm : isAlreadyProcessed (filenameOf key) = false)
    (hr : ∀ a b, env.renameResult a b = false) :
    ∃ nk, processDecoded env key =
      ({ success := false
         action := .errorRename
         reason := some "Failed to rename object in S3"
         originalKey := key },
       [Effect.clockRead, Effect.renameObject key nk]) :=
  ⟨newKeyFor env rule key, processDecoded_rename_failed env key rule h hm (hr _ _)⟩

theorem claim7_witness :
    ∃ nk, processDecoded envRenameFail "person-full/data.json" =
      ({ success := false
         action := .errorRename
         reason := some "Failed to rename object in S3"
         originalKey := "person-full/data.json" },
       [Effect.clockRead, Effect.renameObject "person-full/data.json" nk]) :=
  claim7_rename_failure envRenameFail "person-full/data.json"
    ⟨"person-full", "arn-full"⟩ (by decide) (by decide) (fun _ _ => rfl)

/-- C2, counterexample to the claim as stated: on the raw key `"%"`, whose
percent-encoding is malformed, line 54's `decodeURIComponent` throws, so
`process` does not return an outcome but surfaces the `URIError`. -/
theorem claim2_counterexample :
    process envW "%" = Except.error "URIError: URI malformed" := rfl

/-- C2, amended: for every record whose raw key decodes (well-formed
percent-encoding), `process` never throws — every failure mode is encoded
in the returned outcome value. -/
theorem claim2_amended_no_throw_on_decodable (env : Env) (raw : String)
    (h : (decodeKey raw).isSome = true) :
    ∃ out, process env raw = Except.ok out := by
  cases hd : decodeKey raw with
  | none =>
      rw [hd] at h
      exact absurd h (by simp)
  | some k =>
      refine ⟨processDecoded env k, ?_⟩
      unfold process
      rw [hd]

theorem claim2_witness :
    ∃ out, process envW "person-full/data.json" = Except.ok out :=
  claim2_amended_no_throw_on_decodable envW "person-full/data.json" (by decide)

/-- C9: the raw key is normalized by turning `+` into space and
percent-decoding before any other logic; all subsequent logic runs on the
decoded key, and in every branch the outcome's `originalKey` equals the
decoded key. -/
theorem claim9_decode_normalization :
    (∀ (env : Env) (raw key : String), decodeKey raw = some key →
        process env raw = Except.ok (processDecoded env key)) ∧
    (∀ (env : Env) (key : String), (processDecoded env key).1.originalKey = key) ∧
    decodeKey "a%2Fb+c" = some "a/b c" := by
  refine ⟨?_, processDecoded_originalKey, rfl⟩
  intro env raw key hd
  unfold process
  rw [hd]

theorem claim9_witness :
    process envW "person-full/file%20with%20spaces.json" =
      Except.ok (processDecoded envW "person-full/file with spaces.json") :=
  claim9_decode_normalization.1 envW "person-full/file%20with%20spaces.json"
    "person-full/file with spaces.json" (by rfl)

/-- C5: the recursion guard marks a filename exactly when it starts, at
position 0, with the strict timestamp pattern (four digits, dash, two
digits, dash, two digits, `T`, two digits, colon, two digits, colon, two
digits, dot, three digits, `Z`, dash); only the last slash-delimited
segment of the key is inspected, so a matched key whose filename is not
marked is still processed (rename is called) whatever its directory names
look like; and every marked filename ends the run with
`skipped-already-processed`, success, and an empty effect trace. -/
theorem claim5_recursion_guard_exact :
    (∀ f : String, isAlreadyProcessed f = true ↔ specMarked f) ∧
    (∀ (env : Env) (key : String) (rule : BucketSubdirectory),
        findSubfolderConfig env.config key = some rule →
        isAlreadyProcessed (filenameOf key) = true →
        processDecoded env key =
          ({ success := true
             action := .skippedAlreadyProcessed
             reason := some "File already has timestamp prefix indicating previous processing"
             originalKey := key }, [])) ∧
    (∀ (env : Env) (key : String) (rule : BucketSubdirectory),
        findSubfolderConfig env.config key = some rule →
        isAlreadyProcessed (filenameOf key) = false →
        Effect.renameObject key (newKeyFor env rule key) ∈ (processDecoded env key).2) :=
  ⟨isAlreadyProcessed_iff_specMarked,
   fun env key rule h hm => processDecoded_marked env key rule h hm,
   fun env key rule h hm => rename_effect_present env key rule h hm⟩

theorem claim5_witness :
    processDecoded envW "person-full/2026-02-22T10:30:00.000Z-d.json" =
      ({ success := true
         action := .skippedAlreadyProcessed
         reason := some "File already has timestamp prefix indicating previous processing"
         originalKey := "person-full/2026-02-22T10:30:00.000Z-d.json" }, []) ∧
    Effect.renameObject "2026-02-22T10:30:00.000Z-subfolder/newfile.json"
        (newKeyFor envTsDir ⟨"2026-02-22T10:30:00.000Z-subfolder", "arn-t"⟩
          "2026-02-22T10:30:00.000Z-subfolder/newfile.json") ∈
      (processDecoded envTsDir "2026-02-22T10:30:00.000Z-subfolder/newfile.json").2 :=
  ⟨claim5_recursion_guard_exact.2.1 envW "person-full/2026-02-22T10:30:00.000Z-d.json"
      ⟨"person-full", "arn-full"⟩ (by decide) (by decide),
   claim5_recursion_guard_exact.2.2 envTsDir
      "2026-02-22T10:30:00.000Z-subfolder/newfile.json"
      ⟨"2026-02-22T10:30:00.000Z-subfolder", "arn-t"⟩ (by decide) (by decide)⟩

/-- C1: for a matched, unmarked key, when the injected clock produces a
conforming ISO timestamp, the key computed by the transition (the argument
of the recorded renameObject call) has a marked filename, so re-running
the engine on it (same configuration) terminates with
`skipped-already-processed`, success, and an empty effect trace — no
rename, no notify, no quarantine. -/
theorem claim1_recursion_guard_terminates (env env' : Env) (key nk : String)
    (rule : BucketSubdirectory)
    (hcfg : env'.config = env.config)
    (h : findSubfolderConfig env.config key = some rule)
    (hm : isAlreadyProcessed (filenameOf key) = false)
    (hts : conformingTimestamp (env.clock 0) = true)
    (hmem : Effect.renameObject key nk ∈ (processDecoded env key).2) :
    processDecoded env' nk =
      ({ success := true
         action := .skippedAlreadyProcessed
         reason := some "File already has timestamp prefix indicating previous processing"
         originalKey := nk }, []) := by
  have hnk : nk = newKeyFor env rule key := rename_target_eq env key rule nk h hm hmem
  subst hnk
  have hrmem : rule ∈ env.config.subdirectories := (find_implies_startsWith _ _ _ h).2
  have hsw : jsStartsWith (newKeyFor env rule key) (rule.path ++ "/") = true :=
    newKeyFor_startsWith env rule key
  have hsome : (findSubfolderConfig env'.config (newKeyFor env rule key)).isSome = true := by
    rw [hcfg]
    unfold findSubfolderConfig
    rw [List.find?_isSome]
    exact ⟨rule, hrmem, hsw⟩
  obtain ⟨rule', hrule'⟩ := Option.isSome_iff_exists.mp hsome
  have hmarked := (newKeyFor_filename env rule key hts).2
  exact processDecoded_marked env' (newKeyFor env rule key) rule' hrule' hmarked

theorem claim1_witness :
    processDecoded envW "person-full/2026-02-22T10:30:00.000Z-data.json" =
      ({ success := true
         action := .skippedAlreadyProcessed
         reason := some "File already has timestamp prefix indicating previous processing"
         originalKey := "person-full/2026-02-22T10:30:00.000Z-data.json" }, []) :=
  claim1_recursion_guard_terminates envW envW "person-full/data.json"
    "person-full/2026-02-22T10:30:00.000Z-data.json" ⟨"person-full", "arn-full"⟩
    rfl (by decide) (by decide) (by decide) (by decide)

/-- C8: for a matched, unmarked key whose rename succeeds and whose notify
rejects with `errMsg`, the engine calls the quarantine move with the
renamed key (the same key the recorded renameObject call produced, which
differs from the original key) and the matched path as scope, and returns
`error-invoke`, success=false, subscriberInvoked=false, movedToErrors
equal to the quarantine oracle's result, with the notify failure detail in
the reason; a false quarantine result is reported, not thrown. -/
theorem claim8_notify_failure_quarantine (env : Env) (key : String)
    (rule : BucketSubdirectory) (errMsg : String)
    (h : findSubfolderConfig env.config key = some rule)
    (hm : isAlreadyProcessed (filenameOf key) = false)
    (hr : ∀ a b, env.renameResult a b = true)
    (hn : ∀ arn bn k, env.notifyResult arn bn k = some errMsg)
    (hclk : env.clock 0 ≠ "") :
    ∃ nk, processDecoded env key =
        ({ success := false
           action := .errorInvoke
           reason := some ("Subscriber Lambda invocation failed: " ++ errMsg)
           originalKey := key
           newKey := some nk
           subscriberInvoked := some false
           movedToErrors := some (env.moveToErrorsResult nk rule.path
             ("Subscriber Lambda invocation failed: " ++ errMsg)) },
         [Effect.clockRead, Effect.renameObject key nk,
          Effect.notify rule.subscriberLambdaArn env.config.name nk,
          Effect.moveToErrors nk rule.path
            ("Subscriber Lambda invocation failed: " ++ errMsg)]) ∧
      nk ≠ key := by
  refine ⟨newKeyFor env rule key,
    processDecoded_notify_failed env key rule errMsg h hm (hr _ _) (hn _ _ _), ?_⟩
  intro heq
  have hlen := newKeyFor_len env rule key (find_implies_startsWith _ _ _ h).1 hclk
  rw [heq] at hlen
  exact lt_irrefl _ hlen

theorem claim8_witness :
    ∃ nk, processDecoded envNotifyFail "person-full/data.json" =
        ({ success := false
           action := .errorInvoke
           reason := some ("Subscriber Lambda invocation failed: " ++ "X failed")
           originalKey := "person-full/data.json"
           newKey := some nk
           subscriberInvoked := some false
           movedToErrors := some (envNotifyFail.moveToErrorsResult nk "person-full"
             ("Subscriber Lambda invocation failed: " ++ "X failed")) },
         [Effect.clockRead, Effect.renameObject "person-full/data.json" nk,
          Effect.notify "arn-full" envNotifyFail.config.name nk,
          Effect.moveToErrors nk "person-full"
            ("Subscriber Lambda invocation failed: " ++ "X failed")]) ∧
      nk ≠ "person-full/data.json" :=
  claim8_notify_failure_quarantine envNotifyFail "person-full/data.json"
    ⟨"person-full", "arn-full"⟩ "X failed" (by decide) (by decide)
    (fun _ _ => rfl) (fun _ _ _ => rfl) (by decide)

theorem str_append_empty (s : String) : s ++ "" = s :=
  String.ext (by simp [String.data_append])

theorem newKeyFor_eq_formula (env : Env) (rule : BucketSubdirectory) (key : String) :
    newKeyFor env rule key =
      rule.path ++ "/" ++
        (if (⟨nestedOf rule key⟩ : String) = "" then ""
         else (⟨nestedOf rule key⟩ : String) ++ "/") ++
        (env.clock 0 ++ "-" ++ (⟨fnOf rule key⟩ : String)) := by
  have hslash : ("/" : String).data = ['/'] := rfl
  have hdash : ("-" : String).data = ['-'] := rfl
  apply String.ext
  rw [newKeyFor_data]
  by_cases hn : nestedOf rule key = []
  · have hstr : (⟨nestedOf rule key⟩ : String) = "" := String.ext hn
    rw [if_pos hn, hstr]
    simp [String.data_append, hslash, hdash]
  · have hstr : (⟨nestedOf rule key⟩ : String) ≠ "" :=
      fun he => hn (congrArg String.data he)
    rw [if_neg hn, if_neg hstr]
    simp [String.data_append, hslash, hdash]

/-- C6: for every matched, unmarked key, the key splits as the matched
path, a slash, and the joined path parts; the recorded renameObject call's
target is exactly intakePath + slash + (nested sub-path + slash when
non-empty) + the clock value + dash + the original filename, with the
filename preserved verbatim as a suffix; and in any invocation the clock
is read at most once. -/
theorem claim6_key_transition :
    (∀ (env : Env) (key : String) (rule : BucketSubdirectory),
        findSubfolderConfig env.config key = some rule →
        isAlreadyProcessed (filenameOf key) = false →
        key.data = rule.path.data ++ '/' :: joinSep '/' (relParts rule key) ∧
        Effect.renameObject key
            (rule.path ++ "/" ++
              (if (⟨nestedOf rule key⟩ : String) = "" then ""
               else (⟨nestedOf rule key⟩ : String) ++ "/") ++
              (env.clock 0 ++ "-" ++ (⟨fnOf rule key⟩ : String))) ∈
          (processDecoded env key).2) ∧
    (∀ (env : Env) (key : String),
        (processDecoded env key).2.count Effect.clockRead ≤ 1) := by
  constructor
  · intro env key rule h hm
    obtain ⟨suffix, hk, hdrop⟩ :=
      startsWith_decomp key rule.path (find_implies_startsWith _ _ _ h).1
    constructor
    · rw [hk]
      have hrp : relParts rule key = splitOnChar '/' suffix := by
        unfold relParts
        rw [hdrop]
      rw [hrp, joinSep_splitOnChar]
    · rw [← newKeyFor_eq_formula]
      exact rename_effect_present env key rule h hm
  · intro env key
    cases hf : findSubfolderConfig env.config key with
    | none =>
        rw [processDecoded_no_match env key hf]
        simp
    | some rule =>
        cases hm : isAlreadyProcessed (filenameOf key) with
        | true =>
            rw [processDecoded_marked env key rule hf hm]
            simp
        | false =>
            cases hr : env.renameResult key (newKeyFor env rule key) with
            | false =>
                rw [processDecoded_rename_failed env key rule hf hm hr]
                simp [List.count_cons]
            | true =>
                cases hn : env.notifyResult rule.subscriberLambdaArn env.config.name
                    (newKeyFor env rule key) with
                | none =>
                    rw [processDecoded_notify_ok env key rule hf hm hr hn]
                    simp [List.count_cons]
                | some e =>
                    rw [processDecoded_notify_failed env key rule e hf hm hr hn]
                    simp [List.count_cons]

theorem claim6_witness :
    "person-full/sub/data.json".data =
      ("person-full" : String).data ++ '/' ::
        joinSep '/' (relParts ⟨"person-full", "arn-full"⟩ "person-full/sub/data.json") ∧
    Effect.renameObject "person-full/sub/data.json"
        (("person-full" : String) ++ "/" ++
          (if (⟨nestedOf ⟨"person-full", "arn-full"⟩ "person-full/sub/data.json"⟩ :
              String) = "" then ""
           else (⟨nestedOf ⟨"person-full", "arn-full"⟩ "person-full/sub/data.json"⟩ :
              String) ++ "/") ++
          (envW.clock 0 ++ "-" ++
            (⟨fnOf ⟨"person-full", "arn-full"⟩ "person-full/sub/data.json"⟩ : String))) ∈
      (processDecoded envW "person-full/sub/data.json").2 :=
  claim6_key_transition.1 envW "person-full/sub/data.json"
    ⟨"person-full", "arn-full"⟩ (by decide) (by decide)

/-- C10: for every matched key ending in a slash, the extracted filename is
the empty string, the guard classifies it as not marked, and the engine
proceeds to call renameObject with a new key of the form matched path +
slash + (nested part) + clock value + dash followed by nothing. -/
theorem claim10_trailing_slash_proceeds (env : Env) (key : String)
    (rule : BucketSubdirectory)
    (h : findSubfolderConfig env.config key = some rule)
    (hs : key.data.getLast? = some '/') :
    filenameOf key = "" ∧
    isAlreadyProcessed (filenameOf key) = false ∧
    ∃ mid : String, Effect.renameObject key
        (rule.path ++ "/" ++ mid ++ (env.clock 0 ++ "-")) ∈
      (processDecoded env key).2 := by
  obtain ⟨a, ha⟩ := List.getLast?_eq_some_iff.mp hs
  have hfn : filenameOf key = "" := by
    apply String.ext
    show lastPart (splitOnChar '/' key.data) = ("" : String).data
    rw [ha]
    simpa using lastPart_splitOnChar_append '/' a [] (by simp)
  have hm : isAlreadyProcessed (filenameOf key) = false := by
    rw [hfn]
    rfl
  refine ⟨hfn, hm, ?_⟩
  obtain ⟨suffix, hk, hdrop⟩ :=
    startsWith_decomp key rule.path (find_implies_startsWith _ _ _ h).1
  have hfnOf : fnOf rule key = [] := by
    unfold fnOf relParts
    rw [hdrop]
    cases hsuf : suffix with
    | nil => rfl
    | cons c s' =>
        have hlast : (c :: s').getLast? = some '/' := by
          rw [hk, hsuf, List.getLast?_append, List.getLast?_cons_cons] at hs
          cases hg : (c :: s').getLast? with
          | none => simp at hg
          | some x =>
              rw [hg] at hs
              simpa [Option.or] using hs
        obtain ⟨a', ha'⟩ := List.getLast?_eq_some_iff.mp hlast
        rw [ha']
        simpa using lastPart_splitOnChar_append '/' a' [] (by simp)
  refine ⟨(if (⟨nestedOf rule key⟩ : String) = "" then ""
    else (⟨nestedOf rule key⟩ : String) ++ "/"), ?_⟩
  have hform := newKeyFor_eq_formula env rule key
  rw [hfnOf] at hform
  have hempty : (⟨([] : List Char)⟩ : String) = "" := rfl
  rw [hempty, str_append_empty] at hform
  rw [← hform]
  exact rename_effect_present env key rule h hm

theorem claim10_witness :
    filenameOf "person-full/sub/" = "" ∧
    isAlreadyProcessed (filenameOf "person-full/sub/") = false ∧
    ∃ mid : String, Effect.renameObject "person-full/sub/"
        (("person-full" : String) ++ "/" ++ mid ++ (envW.clock 0 ++ "-")) ∈
      (processDecoded envW "person-full/sub/").2 :=
  claim10_trailing_slash_proceeds envW "person-full/sub/"
    ⟨"person-full", "arn-full"⟩ (by decide) (by decide)
